import Mathlib

/-!
Verification development for `src/figures/heatmap-articles-research-question/main.py`.

The script reads every file matching `rq*.txt`, collects the set of stripped
nonblank lines of each file, tallies in how many files each identifier occurs,
sorts the identifiers by `(count, int(identifier[-4:]))`, sorts the file keys by
`int(key.split('RQ')[1])`, and builds a 0/1 presence matrix.

The embedding below models the script over explicit inputs: a run's input is the
list of discovered files in enumeration order, each paired with its list of
lines.  Python dictionaries are modelled as insertion-ordered association
lists, Python sets of lines as duplicate-free lists in first-occurrence order
(only membership in them matters to the script), and the fallible calls to
`int` return `Option Int`.  String primitives are modelled on ASCII text.
-/

namespace Heatmap

/-- Python `str.strip()` (ASCII model): drop leading and trailing whitespace. -/
def pyStrip (s : String) : String :=
  ⟨((s.data.dropWhile Char.isWhitespace).reverse.dropWhile Char.isWhitespace).reverse⟩

/-- Python `str.upper()` (ASCII model): uppercase every character. -/
def pyUpper (s : String) : String :=
  ⟨s.data.map Char.toUpper⟩

/-- Python slicing `s[-n:]`: the last `n` characters (the whole string when shorter). -/
def lastChars (n : Nat) (s : String) : String :=
  ⟨(s.data.reverse.take n).reverse⟩

/-- Line 20, `arquivo.split('.')[0].upper()`: the part of the filename before its
first `'.'` (the whole name when it has no dot), uppercased. -/
def fileKey (s : String) : String :=
  pyUpper ⟨s.data.takeWhile (fun c => c ≠ '.')⟩

/-- Helper for `pyInt`: consume the remaining digits of an integer literal,
allowing single underscores between digits, accumulating the value. -/
def digitsCore : Nat → List Char → Option Nat
  | acc, [] => some acc
  | acc, '_' :: c :: rest =>
      if c.isDigit then digitsCore (acc * 10 + (c.toNat - 48)) rest else none
  | acc, c :: rest =>
      if c.isDigit then digitsCore (acc * 10 + (c.toNat - 48)) rest else none

/-- Helper for `pyInt`: a nonempty digit string (single underscores allowed
between digits), evaluated to its value. -/
def digitsVal : List Char → Option Nat
  | [] => none
  | c :: rest => if c.isDigit then digitsCore (c.toNat - 48) rest else none

/-- Model of CPython `int(str)` on ASCII strings: surrounding whitespace is
ignored, then an optional sign and a nonempty digit string (with single
underscores allowed between digits); anything else raises, modelled as `none`. -/
def pyInt (s : String) : Option Int :=
  match (pyStrip s).data with
  | '+' :: rest => (digitsVal rest).map (fun n => (n : Int))
  | '-' :: rest => (digitsVal rest).map (fun n => -(n : Int))
  | rest => (digitsVal rest).map (fun n => (n : Int))

/-- Python-dict update (`d[k] = v`) on an insertion-ordered association list:
an existing key keeps its position and gets the new value; a new key is
appended at the end. -/
def dictInsert {β : Type} (k : String) (v : β) : List (String × β) → List (String × β)
  | [] => [(k, v)]
  | p :: d => if p.1 = k then (k, v) :: d else p :: dictInsert k v d

/-- Python-dict lookup on an association list (first binding wins). -/
def dictGet {β : Type} (k : String) : List (String × β) → Option β
  | [] => none
  | p :: d => if p.1 = k then some p.2 else dictGet k d

/-- One line's contribution to the set comprehension of line 19: a blank
stripped line is dropped, a line already present is dropped, otherwise it is
appended. -/
def insertRef (acc : List String) (s : String) : List String :=
  if s = "" then acc else if s ∈ acc then acc else acc ++ [s]

/-- Line 19, `{linha.strip() for linha in f if linha.strip()}`: the set of
stripped nonblank lines of a file, modelled as a duplicate-free list in
first-occurrence order. -/
def referencias (lines : List String) : List String :=
  lines.foldl (fun acc linha => insertRef acc (pyStrip linha)) []

/-- The two dictionaries built by the reading loop of lines 17–23. -/
structure ReadState where
  referencias_por_arquivo : List (String × List String)
  referencias_por_amostra : List (String × Nat)
deriving DecidableEq

/-- Lines 22–23: bump the per-identifier file count once per identifier of the
freshly read file. -/
def tallyStep (t : List (String × Nat)) (refs : List String) : List (String × Nat) :=
  refs.foldl (fun t r => dictInsert r ((dictGet r t).getD 0 + 1) t) t

/-- One iteration of the reading loop (lines 17–23): parse the file, store its
set under the derived key, and tally each of its identifiers. -/
def lerArquivo (st : ReadState) (arquivo : String × List String) : ReadState :=
  { referencias_por_arquivo :=
      dictInsert (fileKey arquivo.1) (referencias arquivo.2) st.referencias_por_arquivo
    referencias_por_amostra := tallyStep st.referencias_por_amostra (referencias arquivo.2) }

/-- The whole reading loop over the discovered files, in enumeration order. -/
def readAll (arquivos : List (String × List String)) : ReadState :=
  arquivos.foldl lerArquivo ⟨[], []⟩

/-- Line 29's sort key `lambda x: (x[1], int(x[0][-4:]))`, fallible. -/
def rowKey (p : String × Nat) : Option (Nat × Int) :=
  (pyInt (lastChars 4 p.1)).map (fun n => (p.2, n))

/-- Lexicographic `≤` on composite keys, matching Python tuple comparison. -/
def keyLe (a b : Nat × Int) : Prop :=
  a.1 < b.1 ∨ (a.1 = b.1 ∧ a.2 ≤ b.2)

instance : DecidableRel keyLe := fun a b =>
  inferInstanceAs (Decidable (a.1 < b.1 ∨ (a.1 = b.1 ∧ a.2 ≤ b.2)))

/-- `keyLe` lifted to key-decorated tally items. -/
def decLe (a b : (String × Nat) × (Nat × Int)) : Prop :=
  keyLe a.2 b.2

instance : DecidableRel decLe := fun a b =>
  inferInstanceAs (Decidable (keyLe a.2 b.2))

/-- Python `sorted(l, key=f)` first computes the key of every element, raising
on the first failure: decorate each element with its key, or fail. -/
def decorateBy {α κ : Type} (f : α → Option κ) : List α → Option (List (α × κ))
  | [] => some []
  | a :: rest =>
    match f a, decorateBy f rest with
    | some k, some ds => some ((a, k) :: ds)
    | _, _ => none

/-- The tally items decorated with the sort key of line 29. -/
def decorate : List (String × Nat) → Option (List ((String × Nat) × (Nat × Int))) :=
  decorateBy rowKey

/-- Lines 28–30: the tally items sorted ascending and stably by
`(count, int(identifier[-4:]))`, projected back to the identifiers; `none` when
some sort key fails to parse.  Stable ascending sorting is realised by
insertion sort with a `≤`-style relation. -/
def todas_referencias (tally : List (String × Nat)) : Option (List String) :=
  (decorate tally).map (fun ds => (List.insertionSort decLe ds).map (fun d => d.1.1))

/-- The text before the first occurrence of `sep` and the text after it, or
`none` when `sep` does not occur. -/
def findSplit (sep : List Char) : List Char → Option (List Char × List Char)
  | [] => none
  | c :: rest =>
    if List.isPrefixOf sep (c :: rest) then some ([], List.drop sep.length (c :: rest))
    else
      match findSplit sep rest with
      | none => none
      | some (pre, post) => some (c :: pre, post)

/-- Split on every non-overlapping occurrence of `sep`, scanning left to right;
the fuel bounds the number of split steps. -/
def pySplitAux (sep : List Char) : Nat → List Char → List (List Char)
  | 0, l => [l]
  | fuel + 1, l =>
    match findSplit sep l with
    | none => [l]
    | some (pre, post) => pre :: pySplitAux sep fuel post

/-- Python `s.split(sep)` for a nonempty separator: the pieces of `s` between
the non-overlapping occurrences of `sep`, found left to right.  A fuel of
`length + 1` split steps always suffices because each found occurrence consumes
at least one character. -/
def pySplit (sep : String) (s : String) : List String :=
  (pySplitAux sep.data (s.data.length + 1) s.data).map (fun l => ⟨l⟩)

/-- Line 33's column sort key `lambda x: int(x.split('RQ')[1])`, fallible:
`none` when the key has no `'RQ'` occurrence or the piece after the first one
is not an integer literal. -/
def colKey (s : String) : Option Int :=
  match (pySplit "RQ" s).get? 1 with
  | some part => pyInt part
  | none => none

/-- `≤` on key-decorated column names. -/
def colLe (a b : String × Int) : Prop :=
  a.2 ≤ b.2

instance : DecidableRel colLe := fun a b =>
  inferInstanceAs (Decidable (a.2 ≤ b.2))

/-- The column names decorated with the sort key of line 33. -/
def decorateCols : List String → Option (List (String × Int)) :=
  decorateBy colKey

/-- Line 33, `sorted(referencias_por_arquivo.keys(), key=lambda x: int(x.split('RQ')[1]))`:
the file keys sorted ascending and stably by the integer after `'RQ'`. -/
def sortedColumns (keys : List String) : Option (List String) :=
  (decorateCols keys).map (fun ds => (List.insertionSort colLe ds).map (fun d => d.1))

/-- Line 37, `df.at[ref, arquivo] = 1` on the functional view of the frame. -/
def setCell (df : String → String → Nat) (r c : String) : String → String → Nat :=
  fun r' c' => if r' = r ∧ c' = c then 1 else df r' c'

/-- Lines 35–37: for every stored file set, set the cell of each of its
identifiers in that file's column to 1. -/
def fillDf (rpa : List (String × List String)) (df : String → String → Nat) :
    String → String → Nat :=
  rpa.foldl (fun df p => p.2.foldl (fun df r => setCell df r p.1) df) df

/-- The presence matrix: the row labels, the column labels, and the cell values
row by row. -/
structure PMatrix where
  rows : List String
  cols : List String
  entries : List (List Nat)
deriving DecidableEq

/-- The cell of the matrix at row `i`, column `j` (0 outside the frame). -/
def PMatrix.entry (m : PMatrix) (i j : Nat) : Nat :=
  (m.entries.getD i []).getD j 0

/-- The set of row labels whose cell in column `j` equals 1 — the round-trip
reconstruction of a per-file identifier set from the matrix alone. -/
def PMatrix.colSet (m : PMatrix) (j : Nat) : List String :=
  ((m.rows.zip (m.entries.map (fun row => row.getD j 0))).filter
    (fun p => p.2 = 1)).map (fun p => p.1)

/-- Lines 8–37 of the script as one function from the discovered files (in
enumeration order, each with its lines) to the presence matrix; `none` when a
sort key fails to parse and the run aborts. -/
def pipeline (arquivos : List (String × List String)) : Option PMatrix :=
  let st := readAll arquivos
  match todas_referencias st.referencias_por_amostra with
  | none => none
  | some rows =>
    match sortedColumns (st.referencias_por_arquivo.map (fun p => p.1)) with
    | none => none
    | some cols =>
      let df := fillDf st.referencias_por_arquivo (fun _ _ => 0)
      some ⟨rows, cols, rows.map (fun r => cols.map (fun c => df r c))⟩

/-- The per-file identifier set the matrix is built from: the final binding of
column key `c` in `referencias_por_arquivo`. -/
def refsOf (arquivos : List (String × List String)) (c : String) : List String :=
  (dictGet c (readAll arquivos).referencias_por_arquivo).getD []

/-- The keys of an association list, in order. -/
def dKeys {β : Type} (d : List (String × β)) : List String :=
  d.map (fun p => p.1)

/-- The composite row sort key of an identifier: its file-frequency count from
the tally, paired with the integer parsed from its last four characters. -/
def decorKey (st : ReadState) (x : String) : Option (Nat × Int) :=
  (pyInt (lastChars 4 x)).map
    (fun n => ((dictGet x st.referencias_por_amostra).getD 0, n))

/-- Two identifiers are in row order when both composite keys exist and the
first is lexicographically at most the second. -/
def rowRel (st : ReadState) (x y : String) : Prop :=
  ∃ kx ky, decorKey st x = some kx ∧ decorKey st y = some ky ∧ keyLe kx ky

/-- Two column keys are in column order when both integer suffixes parse and
the first is at most the second. -/
def colRel (x y : String) : Prop :=
  ∃ nx ny, colKey x = some nx ∧ colKey y = some ny ∧ nx ≤ ny

/-! ### Association-list dictionary lemmas -/

theorem dictGet_dictInsert_self {β : Type} (k : String) (v : β) (d : List (String × β)) :
    dictGet k (dictInsert k v d) = some v := by
  induction d with
  | nil => simp [dictInsert, dictGet]
  | cons p d ih =>
    by_cases h : p.1 = k <;> simp [dictInsert, dictGet, h, ih]

theorem dictGet_dictInsert_ne {β : Type} (k k' : String) (v : β) (d : List (String × β))
    (h : k' ≠ k) : dictGet k' (dictInsert k v d) = dictGet k' d := by
  have hkk : k ≠ k' := Ne.symm h
  induction d with
  | nil => simp [dictInsert, dictGet, hkk]
  | cons p d ih =>
    by_cases hp : p.1 = k
    · have hpk : p.1 ≠ k' := by rw [hp]; exact hkk
      simp [dictInsert, dictGet, hp, hkk, hpk]
    · by_cases hp' : p.1 = k'
      · simp [dictInsert, dictGet, hp, hp', h, ih]
      · simp [dictInsert, dictGet, hp, hp', ih]

theorem mem_dKeys_dictInsert {β : Type} (x k : String) (v : β) (d : List (String × β)) :
    x ∈ dKeys (dictInsert k v d) ↔ x = k ∨ x ∈ dKeys d := by
  induction d with
  | nil => simp [dictInsert, dKeys]
  | cons p d ih =>
    by_cases h : p.1 = k
    · subst h
      rw [show dictInsert p.1 v (p :: d) = (p.1, v) :: d from by simp [dictInsert]]
      rw [show dKeys ((p.1, v) :: d) = p.1 :: dKeys d from rfl,
        show dKeys (p :: d) = p.1 :: dKeys d from rfl]
      simp only [List.mem_cons]
      tauto
    · rw [show dictInsert k v (p :: d) = p :: dictInsert k v d from by simp [dictInsert, h]]
      rw [show dKeys (p :: dictInsert k v d) = p.1 :: dKeys (dictInsert k v d) from rfl,
        show dKeys (p :: d) = p.1 :: dKeys d from rfl]
      simp only [List.mem_cons]
      rw [ih]
      tauto

theorem dKeys_nodup_dictInsert {β : Type} (k : String) (v : β) (d : List (String × β))
    (h : (dKeys d).Nodup) : (dKeys (dictInsert k v d)).Nodup := by
  induction d with
  | nil => simp [dictInsert, dKeys]
  | cons p d ih =>
    rw [show dKeys (p :: d) = p.1 :: dKeys d from rfl, List.nodup_cons] at h
    obtain ⟨hnm, hnd⟩ := h
    by_cases hp : p.1 = k
    · subst hp
      rw [show dictInsert p.1 v (p :: d) = (p.1, v) :: d from by simp [dictInsert]]
      rw [show dKeys ((p.1, v) :: d) = p.1 :: dKeys d from rfl, List.nodup_cons]
      exact ⟨hnm, hnd⟩
    · rw [show dictInsert k v (p :: d) = p :: dictInsert k v d from by simp [dictInsert, hp]]
      rw [show dKeys (p :: dictInsert k v d) = p.1 :: dKeys (dictInsert k v d) from rfl,
        List.nodup_cons]
      constructor
      · rw [mem_dKeys_dictInsert]
        push_neg
        exact ⟨hp, hnm⟩
      · exact ih hnd

theorem dictGet_eq_some_mem {β : Type} (k : String) (v : β) (d : List (String × β))
    (h : dictGet k d = some v) : (k, v) ∈ d := by
  induction d with
  | nil => simp [dictGet] at h
  | cons p d ih =>
    by_cases hp : p.1 = k
    · simp only [dictGet, if_pos hp, Option.some.injEq] at h
      have hpv : (k, v) = p := by rw [← hp, ← h]
      exact List.mem_cons.mpr (Or.inl hpv)
    · simp only [dictGet, if_neg hp] at h
      exact List.mem_cons_of_mem _ (ih h)

theorem mem_dKeys_of_mem {β : Type} (k : String) (v : β) (d : List (String × β))
    (h : (k, v) ∈ d) : k ∈ dKeys d :=
  List.mem_map_of_mem (fun p => p.1) h

theorem dictGet_of_mem_of_nodup {β : Type} (k : String) (v : β) (d : List (String × β))
    (hn : (dKeys d).Nodup) (hm : (k, v) ∈ d) : dictGet k d = some v := by
  induction d with
  | nil => simp at hm
  | cons p d ih =>
    rw [show dKeys (p :: d) = p.1 :: dKeys d from rfl, List.nodup_cons] at hn
    rcases List.mem_cons.mp hm with h | h
    · rw [← h]
      simp [dictGet]
    · have hk : k ∈ dKeys d := mem_dKeys_of_mem k v d h
      have hp : p.1 ≠ k := fun he => hn.1 (by rw [he]; exact hk)
      simp only [dictGet, if_neg hp]
      exact ih hn.2 h

theorem dictGet_none_iff {β : Type} (k : String) (d : List (String × β)) :
    dictGet k d = none ↔ k ∉ dKeys d := by
  induction d with
  | nil => simp [dictGet, dKeys]
  | cons p d ih =>
    by_cases hp : p.1 = k
    · simp [dictGet, dKeys, hp]
    · simp [dictGet, dKeys, hp, ih, Ne.symm hp]

/-! ### Parsing (`referencias`) lemmas -/

theorem mem_insertRef (acc : List String) (s x : String) :
    x ∈ insertRef acc s ↔ x ∈ acc ∨ (x = s ∧ s ≠ "") := by
  by_cases hb : s = ""
  · simp [insertRef, hb]
  · by_cases hm : s ∈ acc
    · rw [show insertRef acc s = acc from by simp [insertRef, hb, hm]]
      constructor
      · tauto
      · rintro (h | ⟨rfl, -⟩)
        · exact h
        · exact hm
    · rw [show insertRef acc s = acc ++ [s] from by simp [insertRef, hb, hm]]
      simp [List.mem_append, hb]

theorem mem_referencias_foldl (lines : List String) (acc : List String) (x : String) :
    x ∈ lines.foldl (fun acc linha => insertRef acc (pyStrip linha)) acc ↔
      x ∈ acc ∨ ∃ l ∈ lines, pyStrip l = x ∧ x ≠ "" := by
  induction lines generalizing acc with
  | nil => simp
  | cons l ls ih =>
    rw [List.foldl_cons, ih, mem_insertRef]
    constructor
    · rintro ((h | ⟨rfl, hne⟩) | ⟨l', hl', he, hne⟩)
      · exact Or.inl h
      · exact Or.inr ⟨l, List.mem_cons_self l ls, rfl, hne⟩
      · exact Or.inr ⟨l', List.mem_cons_of_mem _ hl', he, hne⟩
    · rintro (h | ⟨l', hl', he, hne⟩)
      · exact Or.inl (Or.inl h)
      · rcases List.mem_cons.mp hl' with rfl | hl'
        · exact Or.inl (Or.inr ⟨he.symm, he ▸ hne⟩)
        · exact Or.inr ⟨l', hl', he, hne⟩

theorem mem_referencias (lines : List String) (x : String) :
    x ∈ referencias lines ↔ ∃ l ∈ lines, pyStrip l = x ∧ x ≠ "" := by
  simpa [referencias] using mem_referencias_foldl lines [] x

theorem nodup_insertRef (acc : List String) (s : String) (h : acc.Nodup) :
    (insertRef acc s).Nodup := by
  by_cases hb : s = ""
  · simpa [insertRef, hb] using h
  · by_cases hm : s ∈ acc
    · simpa [insertRef, hb, hm] using h
    · simp [insertRef, hb, hm, List.nodup_append, h]

theorem nodup_referencias_foldl (lines : List String) (acc : List String) (h : acc.Nodup) :
    (lines.foldl (fun acc linha => insertRef acc (pyStrip linha)) acc).Nodup := by
  induction lines generalizing acc with
  | nil => simpa using h
  | cons l ls ih =>
    rw [List.foldl_cons]
    exact ih _ (nodup_insertRef _ _ h)

theorem nodup_referencias (lines : List String) : (referencias lines).Nodup :=
  nodup_referencias_foldl lines [] List.nodup_nil

/-! ### Tally (`referencias_por_amostra`) lemmas -/

theorem dictGet_tallyStep (t : List (String × Nat)) (refs : List String) (r : String)
    (h : refs.Nodup) :
    dictGet r (tallyStep t refs) =
      if r ∈ refs then some ((dictGet r t).getD 0 + 1) else dictGet r t := by
  induction refs generalizing t with
  | nil => simp [tallyStep]
  | cons x rest ih =>
    have hx : x ∉ rest := (List.nodup_cons.mp h).1
    have hrest : rest.Nodup := (List.nodup_cons.mp h).2
    show dictGet r (tallyStep (dictInsert x ((dictGet x t).getD 0 + 1) t) rest) = _
    rw [ih _ hrest]
    by_cases hr : r = x
    · subst hr
      simp [hx, dictGet_dictInsert_self]
    · rw [dictGet_dictInsert_ne _ _ _ _ hr]
      simp [List.mem_cons, hr]

theorem mem_dKeys_tallyStep (t : List (String × Nat)) (refs : List String) (x : String) :
    x ∈ dKeys (tallyStep t refs) ↔ x ∈ dKeys t ∨ x ∈ refs := by
  induction refs generalizing t with
  | nil => simp [tallyStep]
  | cons y rest ih =>
    show x ∈ dKeys (tallyStep (dictInsert y _ t) rest) ↔ _
    rw [ih, mem_dKeys_dictInsert]
    simp [List.mem_cons]
    tauto

theorem dKeys_nodup_tallyStep (t : List (String × Nat)) (refs : List String)
    (h : (dKeys t).Nodup) : (dKeys (tallyStep t refs)).Nodup := by
  induction refs generalizing t with
  | nil => simpa [tallyStep] using h
  | cons y rest ih =>
    exact ih _ (dKeys_nodup_dictInsert _ _ _ h)

/-! ### Invariants of the reading loop -/

theorem foldl_keys_nodup (arquivos : List (String × List String)) (st : ReadState)
    (h1 : (dKeys st.referencias_por_arquivo).Nodup)
    (h2 : (dKeys st.referencias_por_amostra).Nodup) :
    (dKeys (arquivos.foldl lerArquivo st).referencias_por_arquivo).Nodup ∧
    (dKeys (arquivos.foldl lerArquivo st).referencias_por_amostra).Nodup := by
  induction arquivos generalizing st with
  | nil => exact ⟨h1, h2⟩
  | cons f fs ih =>
    exact ih (lerArquivo st f) (dKeys_nodup_dictInsert _ _ _ h1)
      (dKeys_nodup_tallyStep _ _ h2)

theorem readAll_keys_nodup (arquivos : List (String × List String)) :
    (dKeys (readAll arquivos).referencias_por_arquivo).Nodup ∧
    (dKeys (readAll arquivos).referencias_por_amostra).Nodup :=
  foldl_keys_nodup arquivos ⟨[], []⟩ List.nodup_nil List.nodup_nil

theorem foldl_tally_mem (arquivos : List (String × List String)) (st : ReadState) (x : String) :
    x ∈ dKeys (arquivos.foldl lerArquivo st).referencias_por_amostra ↔
      x ∈ dKeys st.referencias_por_amostra ∨ ∃ f ∈ arquivos, x ∈ referencias f.2 := by
  induction arquivos generalizing st with
  | nil => simp
  | cons f fs ih =>
    rw [List.foldl_cons, ih]
    rw [show (lerArquivo st f).referencias_por_amostra
        = tallyStep st.referencias_por_amostra (referencias f.2) from rfl]
    rw [mem_dKeys_tallyStep]
    constructor
    · rintro ((h | h) | ⟨f', hf', hx⟩)
      · exact Or.inl h
      · exact Or.inr ⟨f, List.mem_cons_self f fs, h⟩
      · exact Or.inr ⟨f', List.mem_cons_of_mem _ hf', hx⟩
    · rintro (h | ⟨f', hf', hx⟩)
      · exact Or.inl (Or.inl h)
      · rcases List.mem_cons.mp hf' with rfl | hf'
        · exact Or.inl (Or.inr hx)
        · exact Or.inr ⟨f', hf', hx⟩

theorem readAll_tally_mem (arquivos : List (String × List String)) (x : String) :
    x ∈ dKeys (readAll arquivos).referencias_por_amostra ↔
      ∃ f ∈ arquivos, x ∈ referencias f.2 := by
  rw [readAll, foldl_tally_mem]
  simp [dKeys]

theorem foldl_rpa_sub (arquivos : List (String × List String)) (st : ReadState)
    (h : ∀ c v, dictGet c st.referencias_por_arquivo = some v →
      ∀ x ∈ v, x ∈ dKeys st.referencias_por_amostra) :
    ∀ c v, dictGet c (arquivos.foldl lerArquivo st).referencias_por_arquivo = some v →
      ∀ x ∈ v, x ∈ dKeys (arquivos.foldl lerArquivo st).referencias_por_amostra := by
  induction arquivos generalizing st with
  | nil => exact h
  | cons f fs ih =>
    rw [List.foldl_cons]
    apply ih
    intro c v hcv x hx
    rw [show (lerArquivo st f).referencias_por_amostra
        = tallyStep st.referencias_por_amostra (referencias f.2) from rfl]
    rw [mem_dKeys_tallyStep]
    by_cases hc : c = fileKey f.1
    · subst hc
      rw [show (lerArquivo st f).referencias_por_arquivo
          = dictInsert (fileKey f.1) (referencias f.2) st.referencias_por_arquivo from rfl,
        dictGet_dictInsert_self] at hcv
      obtain rfl : referencias f.2 = v := by injection hcv
      exact Or.inr hx
    · rw [show (lerArquivo st f).referencias_por_arquivo
          = dictInsert (fileKey f.1) (referencias f.2) st.referencias_por_arquivo from rfl,
        dictGet_dictInsert_ne _ _ _ _ hc] at hcv
      exact Or.inl (h c v hcv x hx)

theorem readAll_rpa_sub (arquivos : List (String × List String)) (c : String) (v : List String)
    (h : dictGet c (readAll arquivos).referencias_por_arquivo = some v) :
    ∀ x ∈ v, x ∈ dKeys (readAll arquivos).referencias_por_amostra := by
  refine foldl_rpa_sub arquivos ⟨[], []⟩ ?_ c v h
  intro c v hcv
  exact Option.noConfusion hcv

/-! ### Matrix fill (`df`) lemmas -/

theorem foldl_setCell (refs : List String) (df : String → String → Nat) (r c k : String) :
    (refs.foldl (fun df x => setCell df x k) df) r c =
      if c = k ∧ r ∈ refs then 1 else df r c := by
  induction refs generalizing df with
  | nil => simp
  | cons x rest ih =>
    rw [List.foldl_cons, ih]
    by_cases hc : c = k
    · by_cases hx : r = x
      · simp [setCell, hc, hx]
      · by_cases hr : r ∈ rest <;> simp [setCell, hc, hx, hr, List.mem_cons]
    · simp [setCell, hc]

theorem fillDf_eq (rpa : List (String × List String)) (df : String → String → Nat)
    (r c : String) :
    fillDf rpa df r c = if ∃ p ∈ rpa, p.1 = c ∧ r ∈ p.2 then 1 else df r c := by
  induction rpa generalizing df with
  | nil => simp [fillDf]
  | cons p rest ih =>
    rw [show fillDf (p :: rest) df
        = fillDf rest (p.2.foldl (fun df x => setCell df x p.1) df) from rfl, ih,
      foldl_setCell]
    by_cases h1 : ∃ q ∈ rest, q.1 = c ∧ r ∈ q.2
    · obtain ⟨q, hq, hqc⟩ := h1
      rw [if_pos ⟨q, hq, hqc⟩, if_pos ⟨q, List.mem_cons_of_mem _ hq, hqc⟩]
    · by_cases h2 : c = p.1 ∧ r ∈ p.2
      · rw [if_neg h1, if_pos h2,
          if_pos (show ∃ q ∈ p :: rest, q.1 = c ∧ r ∈ q.2 from
            ⟨p, List.mem_cons_self p rest, h2.1.symm, h2.2⟩)]
      · rw [if_neg h1, if_neg h2, if_neg ?hno]
        case hno =>
          rintro ⟨q, hq, hqc, hqr⟩
          rcases List.mem_cons.mp hq with rfl | hq
          · exact h2 ⟨hqc.symm, hqr⟩
          · exact h1 ⟨q, hq, hqc, hqr⟩

theorem fillDf_cell (rpa : List (String × List String)) (hn : (dKeys rpa).Nodup)
    (r c : String) :
    fillDf rpa (fun _ _ => 0) r c = if r ∈ (dictGet c rpa).getD [] then 1 else 0 := by
  rw [fillDf_eq]
  have hiff : (∃ p ∈ rpa, p.1 = c ∧ r ∈ p.2) ↔ r ∈ (dictGet c rpa).getD [] := by
    constructor
    · rintro ⟨p, hp, rfl, hr⟩
      rw [dictGet_of_mem_of_nodup p.1 p.2 rpa hn hp]
      exact hr
    · intro h
      cases hg : dictGet c rpa with
      | none => rw [hg] at h; simp at h
      | some v =>
        rw [hg] at h
        exact ⟨(c, v), dictGet_eq_some_mem c v rpa hg, rfl, h⟩
  by_cases h : ∃ p ∈ rpa, p.1 = c ∧ r ∈ p.2
  · rw [if_pos h, if_pos (hiff.mp h)]
  · rw [if_neg h, if_neg (fun hh => h (hiff.mpr hh))]

/-! ### Sort-key decoration lemmas -/

theorem decorateBy_map_fst {α κ : Type} (f : α → Option κ) (l : List α)
    (ds : List (α × κ)) (h : decorateBy f l = some ds) : ds.map (fun d => d.1) = l := by
  induction l generalizing ds with
  | nil =>
    obtain rfl : ([] : List (α × κ)) = ds := by injection h
    rfl
  | cons a rest ih =>
    cases hk : f a with
    | none => rw [show decorateBy f (a :: rest) = none from by simp [decorateBy, hk]] at h; cases h
    | some k =>
      cases hd : decorateBy f rest with
      | none =>
        rw [show decorateBy f (a :: rest) = none from by simp [decorateBy, hk, hd]] at h
        cases h
      | some ds' =>
        rw [show decorateBy f (a :: rest) = some ((a, k) :: ds') from by
          simp [decorateBy, hk, hd]] at h
        obtain rfl : (a, k) :: ds' = ds := by injection h
        simp [ih ds' hd]

theorem decorateBy_mem {α κ : Type} (f : α → Option κ) (l : List α)
    (ds : List (α × κ)) (h : decorateBy f l = some ds) :
    ∀ d ∈ ds, f d.1 = some d.2 ∧ d.1 ∈ l := by
  induction l generalizing ds with
  | nil =>
    obtain rfl : ([] : List (α × κ)) = ds := by injection h
    intro d hd
    cases hd
  | cons a rest ih =>
    cases hk : f a with
    | none => rw [show decorateBy f (a :: rest) = none from by simp [decorateBy, hk]] at h; cases h
    | some k =>
      cases hd : decorateBy f rest with
      | none =>
        rw [show decorateBy f (a :: rest) = none from by simp [decorateBy, hk, hd]] at h
        cases h
      | some ds' =>
        rw [show decorateBy f (a :: rest) = some ((a, k) :: ds') from by
          simp [decorateBy, hk, hd]] at h
        obtain rfl : (a, k) :: ds' = ds := by injection h
        intro d hd'
        rcases List.mem_cons.mp hd' with rfl | hd'
        · exact ⟨hk, List.mem_cons_self a rest⟩
        · exact ⟨(ih ds' hd d hd').1, List.mem_cons_of_mem _ (ih ds' hd d hd').2⟩

theorem decorateBy_none_iff {α κ : Type} (f : α → Option κ) (l : List α) :
    decorateBy f l = none ↔ ∃ a ∈ l, f a = none := by
  induction l with
  | nil => simp [decorateBy]
  | cons a rest ih =>
    cases hk : f a with
    | none =>
      rw [show decorateBy f (a :: rest) = none from by simp [decorateBy, hk]]
      simp
      exact Or.inl hk
    | some k =>
      cases hd : decorateBy f rest with
      | none =>
        rw [show decorateBy f (a :: rest) = none from by simp [decorateBy, hk, hd]]
        obtain ⟨a', ha', hfa'⟩ := ih.mp hd
        simp
        exact Or.inr ⟨a', ha', hfa'⟩
      | some ds' =>
        rw [show decorateBy f (a :: rest) = some ((a, k) :: ds') from by
          simp [decorateBy, hk, hd]]
        simp [hk]
        intro a' ha'
        have := ih.mpr
        intro hfa'
        exact Option.noConfusion (hd ▸ ih.mpr ⟨a', ha', hfa'⟩)

/-! ### Order facts about the sort relations -/

theorem keyLe_total (a b : Nat × Int) : keyLe a b ∨ keyLe b a := by
  unfold keyLe
  omega

theorem keyLe_trans (a b c : Nat × Int) (h1 : keyLe a b) (h2 : keyLe b c) : keyLe a c := by
  unfold keyLe at h1 h2 ⊢
  omega

instance : IsTotal ((String × Nat) × Nat × Int) decLe :=
  ⟨fun a b => keyLe_total a.2 b.2⟩

instance : IsTrans ((String × Nat) × Nat × Int) decLe :=
  ⟨fun _ _ _ h1 h2 => keyLe_trans _ _ _ h1 h2⟩

instance : IsTotal (String × Int) colLe :=
  ⟨fun a b => Int.le_total a.2 b.2⟩

instance : IsTrans (String × Int) colLe :=
  ⟨fun _ _ _ h1 h2 => le_trans h1 h2⟩

/-! ### The sorted row and column lists -/

theorem todas_referencias_eq (tally : List (String × Nat)) (rows : List String)
    (h : todas_referencias tally = some rows) :
    ∃ ds, decorate tally = some ds ∧
      rows = (List.insertionSort decLe ds).map (fun d => d.1.1) := by
  cases hd : decorate tally with
  | none => rw [todas_referencias, hd] at h; cases h
  | some ds =>
    rw [todas_referencias, hd] at h
    obtain rfl : (List.insertionSort decLe ds).map (fun d => d.1.1) = rows := by injection h
    exact ⟨ds, rfl, rfl⟩

theorem todas_referencias_perm (tally : List (String × Nat)) (rows : List String)
    (h : todas_referencias tally = some rows) : rows.Perm (dKeys tally) := by
  obtain ⟨ds, hds, rfl⟩ := todas_referencias_eq tally rows h
  have h1 : (List.insertionSort decLe ds).Perm ds := List.perm_insertionSort decLe ds
  have h2 : ((List.insertionSort decLe ds).map (fun d => d.1.1)).Perm
      (ds.map (fun d => d.1.1)) := h1.map _
  have h3 : ds.map (fun d => d.1.1) = dKeys tally := by
    rw [show (fun d : (String × Nat) × Nat × Int => d.1.1)
        = (fun p : String × Nat => p.1) ∘ (fun d : (String × Nat) × Nat × Int => d.1) from rfl]
    rw [← List.map_map, decorateBy_map_fst rowKey tally ds hds]
    rfl
  rw [h3] at h2
  exact h2

theorem sortedColumns_eq (ks : List String) (cols : List String)
    (h : sortedColumns ks = some cols) :
    ∃ ds, decorateCols ks = some ds ∧
      cols = (List.insertionSort colLe ds).map (fun d => d.1) := by
  cases hd : decorateCols ks with
  | none => rw [sortedColumns, hd] at h; cases h
  | some ds =>
    rw [sortedColumns, hd] at h
    obtain rfl : (List.insertionSort colLe ds).map (fun d => d.1) = cols := by injection h
    exact ⟨ds, rfl, rfl⟩

theorem sortedColumns_perm (ks : List String) (cols : List String)
    (h : sortedColumns ks = some cols) : cols.Perm ks := by
  obtain ⟨ds, hds, rfl⟩ := sortedColumns_eq ks cols h
  have h1 : (List.insertionSort colLe ds).Perm ds := List.perm_insertionSort colLe ds
  have h2 := h1.map (fun d : String × Int => d.1)
  rw [decorateBy_map_fst colKey ks ds hds] at h2
  exact h2

/-! ### Destructuring a successful pipeline run -/

theorem pipeline_eq (arquivos : List (String × List String)) (m : PMatrix)
    (h : pipeline arquivos = some m) :
    ∃ rows cols,
      todas_referencias (readAll arquivos).referencias_por_amostra = some rows ∧
      sortedColumns ((readAll arquivos).referencias_por_arquivo.map (fun p => p.1)) = some cols ∧
      m = ⟨rows, cols, rows.map (fun r => cols.map (fun c =>
        fillDf (readAll arquivos).referencias_por_arquivo (fun _ _ => 0) r c))⟩ := by
  cases htr : todas_referencias (readAll arquivos).referencias_por_amostra with
  | none => rw [pipeline, htr] at h; cases h
  | some rows =>
    cases hsc : sortedColumns ((readAll arquivos).referencias_por_arquivo.map (fun p => p.1)) with
    | none => rw [pipeline, htr, hsc] at h; cases h
    | some cols =>
      rw [pipeline, htr, hsc] at h
      refine ⟨rows, cols, rfl, rfl, ?_⟩
      injection h with h
      exact h.symm

/-! ### Row order and column order of a successful run -/

theorem decorKey_of_mem (st : ReadState)
    (hn : (dKeys st.referencias_por_amostra).Nodup)
    (d : (String × Nat) × Nat × Int) (hk : rowKey d.1 = some d.2)
    (hmem : d.1 ∈ st.referencias_por_amostra) : decorKey st d.1.1 = some d.2 := by
  cases hpi : pyInt (lastChars 4 d.1.1) with
  | none => rw [rowKey, hpi] at hk; cases hk
  | some n =>
    rw [rowKey, hpi] at hk
    have hget : dictGet d.1.1 st.referencias_por_amostra = some d.1.2 :=
      dictGet_of_mem_of_nodup d.1.1 d.1.2 st.referencias_por_amostra hn hmem
    rw [decorKey, hpi, hget]
    simpa using hk

theorem rows_chain_aux (tally : List (String × Nat)) (rows : List String)
    (hn : (dKeys tally).Nodup) (h : todas_referencias tally = some rows) :
    rows.Chain' (rowRel ⟨[], tally⟩) := by
  obtain ⟨ds, hds, rfl⟩ := todas_referencias_eq tally rows h
  have hsorted : (List.insertionSort decLe ds).Pairwise decLe :=
    List.sorted_insertionSort decLe ds
  have hperm : (List.insertionSort decLe ds).Perm ds := List.perm_insertionSort decLe ds
  have hpair : (List.insertionSort decLe ds).Pairwise
      (fun a b => rowRel ⟨[], tally⟩ a.1.1 b.1.1) := by
    refine hsorted.imp_of_mem ?_
    intro a b ha hb hab
    have hma := decorateBy_mem rowKey tally ds hds a (hperm.mem_iff.mp ha)
    have hmb := decorateBy_mem rowKey tally ds hds b (hperm.mem_iff.mp hb)
    exact ⟨a.2, b.2, decorKey_of_mem ⟨[], tally⟩ hn a hma.1 hma.2,
      decorKey_of_mem ⟨[], tally⟩ hn b hmb.1 hmb.2, hab⟩
  exact (List.pairwise_map.mpr hpair).chain'

theorem cols_chain_aux (ks : List String) (cols : List String)
    (h : sortedColumns ks = some cols) : cols.Chain' colRel := by
  obtain ⟨ds, hds, rfl⟩ := sortedColumns_eq ks cols h
  have hsorted : (List.insertionSort colLe ds).Pairwise colLe :=
    List.sorted_insertionSort colLe ds
  have hperm : (List.insertionSort colLe ds).Perm ds := List.perm_insertionSort colLe ds
  have hpair : (List.insertionSort colLe ds).Pairwise
      (fun a b => colRel a.1 b.1) := by
    refine hsorted.imp_of_mem ?_
    intro a b ha hb hab
    have hma := decorateBy_mem colKey ks ds hds a (hperm.mem_iff.mp ha)
    have hmb := decorateBy_mem colKey ks ds hds b (hperm.mem_iff.mp hb)
    exact ⟨a.2, b.2, hma.1, hmb.1, hab⟩
  exact (List.pairwise_map.mpr hpair).chain'

/-! ### Indexing helper lemmas -/

theorem getD_map_lt {α β : Type} (l : List α) (g : α → β) (i : Nat) (hi : i < l.length)
    (db : β) (da : α) : (l.map g).getD i db = g (l.getD i da) := by
  induction l generalizing i with
  | nil => simp at hi
  | cons a rest ih =>
    cases i with
    | zero => rfl
    | succ n =>
      have hn : n < rest.length := Nat.lt_of_succ_lt_succ hi
      simpa using ih n hn

theorem zip_self_map {α β : Type} (l : List α) (g : α → β) :
    l.zip (l.map g) = l.map (fun a => (a, g a)) := by
  induction l with
  | nil => rfl
  | cons a rest ih => simp [ih]

theorem takeWhile_no_dot (stem ext : List Char) (h : ∀ c ∈ stem, c ≠ '.') :
    (stem ++ '.' :: ext).takeWhile (fun c => c ≠ '.') = stem := by
  induction stem with
  | nil => simp [List.takeWhile_cons]
  | cons c rest ih =>
    have hc : c ≠ '.' := h c (List.mem_cons_self c rest)
    rw [List.cons_append, List.takeWhile_cons, if_pos (by exact decide_eq_true hc),
      ih (fun c hc' => h c (List.mem_cons_of_mem _ hc'))]

/-! ### Claims -/

/-- C9: when discovery finds zero matching input files, the pipeline does not
fail: it produces an empty presence matrix with zero rows and zero columns. -/
theorem empty_discovery_empty_matrix :
    pipeline [] = some ⟨[], [], []⟩ := by
  decide

/-- C6 (counterexample): on the spec's own example input — `rq1.txt` holding
lines `A1`, `A2` and `rq2.txt` holding `A2` — the run aborts (the sort key
`int("A1"[-4:])` raises), so no matrix with the claimed rows is produced. -/
theorem spec_example_aborts :
    pipeline [("rq1.txt", ["A1\n", "A2\n"]), ("rq2.txt", ["A2\n"])] = none := by
  decide

/-- C6 (amended): with identifiers whose last four characters parse as
integers — `rq1.txt` holding `A0001`, `A0002` and `rq2.txt` holding `A0002` —
the matrix has rows `A0001`, `A0002`, columns `RQ1`, `RQ2`, cells
A0001 ↦ (1, 0) and A0002 ↦ (1, 1), and row A0002 is ordered after A0001
because its frequency 2 exceeds A0001's frequency 1. -/
theorem spec_example_with_parsable_suffixes :
    pipeline [("rq1.txt", ["A0001\n", "A0002\n"]), ("rq2.txt", ["A0002\n"])]
      = some ⟨["A0001", "A0002"], ["RQ1", "RQ2"], [[1, 0], [1, 1]]⟩ := by
  decide

/-- C8 (counterexample): the column key is not the filename uppercased with its
extension stripped, and filenames differing beyond their extension can
collide: `rq1.a.txt` yields `RQ1` (not `RQ1.A`), the same key as `rq1.txt`. -/
theorem file_key_not_extension_stripped :
    fileKey "rq1.a.txt" = "RQ1" ∧ ("RQ1" : String) ≠ "RQ1.A" ∧
    fileKey "rq1.txt" = fileKey "rq1.a.txt" ∧ ("rq1.txt" : String) ≠ "rq1.a.txt" := by
  decide

/-- C8 (amended): the logical column key is the part of the filename before its
first dot, uppercased; for a dot-free stem followed by a dot and anything else
the key is the uppercased stem, and two such filenames whose uppercased stems
differ always yield distinct keys. -/
theorem file_key_before_first_dot (stem ext : List Char) (h : ∀ c ∈ stem, c ≠ '.') :
    fileKey ⟨stem ++ '.' :: ext⟩ = pyUpper ⟨stem⟩ ∧
    ∀ stem2 ext2 : List Char, (∀ c ∈ stem2, c ≠ '.') →
      pyUpper ⟨stem⟩ ≠ pyUpper ⟨stem2⟩ →
      fileKey ⟨stem ++ '.' :: ext⟩ ≠ fileKey ⟨stem2 ++ '.' :: ext2⟩ := by
  have hmain : ∀ s e : List Char, (∀ c ∈ s, c ≠ '.') →
      fileKey ⟨s ++ '.' :: e⟩ = pyUpper ⟨s⟩ := by
    intro s e hs
    show pyUpper ⟨(s ++ '.' :: e).takeWhile (fun c => c ≠ '.')⟩ = pyUpper ⟨s⟩
    rw [takeWhile_no_dot s e hs]
  refine ⟨hmain stem ext h, ?_⟩
  intro stem2 ext2 h2 hne
  rw [hmain stem ext h, hmain stem2 ext2 h2]
  exact hne

/-- Witness for the amended C8, at stems `rq1`, `rq2` and extension `txt`. -/
theorem file_key_before_first_dot_witness :
    fileKey ⟨['r', 'q', '1'] ++ '.' :: ['t', 'x', 't']⟩ = pyUpper ⟨['r', 'q', '1']⟩ ∧
    fileKey ⟨['r', 'q', '1'] ++ '.' :: ['t', 'x', 't']⟩ ≠
      fileKey ⟨['r', 'q', '2'] ++ '.' :: ['t', 'x', 't']⟩ :=
  ⟨(file_key_before_first_dot ['r', 'q', '1'] ['t', 'x', 't'] (by decide)).1,
   (file_key_before_first_dot ['r', 'q', '1'] ['t', 'x', 't'] (by decide)).2
     ['r', 'q', '2'] ['t', 'x', 't'] (by decide) (by decide)⟩

/-- C10: when a file's derived key already has a binding, reading the file
replaces the stored identifier set for that key while the tally still counts
the identifiers of both files; concretely, on `rq1.txt` holding `B0001` and
`rq1.a.txt` holding `B0002` (both key `RQ1`), the tally counts both
identifiers once, and `B0001` appears as a matrix row whose cells are all 0. -/
theorem key_collision_replaces_and_tallies (st : ReadState)
    (arquivo : String × List String)
    (_h : fileKey arquivo.1 ∈ dKeys st.referencias_por_arquivo) :
    dictGet (fileKey arquivo.1) (lerArquivo st arquivo).referencias_por_arquivo =
      some (referencias arquivo.2) ∧
    (readAll [("rq1.txt", ["B0001\n"]), ("rq1.a.txt", ["B0002\n"])]).referencias_por_amostra
      = [("B0001", 1), ("B0002", 1)] ∧
    pipeline [("rq1.txt", ["B0001\n"]), ("rq1.a.txt", ["B0002\n"])]
      = some ⟨["B0001", "B0002"], ["RQ1"], [[0], [1]]⟩ := by
  refine ⟨?_, by decide, by decide⟩
  exact dictGet_dictInsert_self _ _ _

/-- Witness for C10, at a state that already binds key `RQ1`. -/
theorem key_collision_replaces_and_tallies_witness :
    dictGet (fileKey "rq1.a.txt")
      (lerArquivo ⟨[("RQ1", ["H0001"])], [("H0001", 1)]⟩
        ("rq1.a.txt", ["H0002\n"])).referencias_por_arquivo
      = some (referencias ["H0002\n"]) ∧
    (readAll [("rq1.txt", ["B0001\n"]), ("rq1.a.txt", ["B0002\n"])]).referencias_por_amostra
      = [("B0001", 1), ("B0002", 1)] ∧
    pipeline [("rq1.txt", ["B0001\n"]), ("rq1.a.txt", ["B0002\n"])]
      = some ⟨["B0001", "B0002"], ["RQ1"], [[0], [1]]⟩ :=
  key_collision_replaces_and_tallies ⟨[("RQ1", ["H0001"])], [("H0001", 1)]⟩
    ("rq1.a.txt", ["H0002\n"]) (by decide)

/-- C7: an input with some identifier whose last four characters do not parse
as an integer makes the whole run fail, and when every identifier's suffix
parses the row-sorting step succeeds. -/
theorem unparsable_suffix_is_fatal (arquivos : List (String × List String)) :
    ((∃ x ∈ dKeys (readAll arquivos).referencias_por_amostra,
        pyInt (lastChars 4 x) = none) → pipeline arquivos = none) ∧
    ((∀ x ∈ dKeys (readAll arquivos).referencias_por_amostra,
        (pyInt (lastChars 4 x)).isSome) →
      (todas_referencias (readAll arquivos).referencias_por_amostra).isSome) := by
  have hlink : ∀ p : String × Nat, rowKey p = none ↔ pyInt (lastChars 4 p.1) = none := by
    intro p
    rw [rowKey]
    cases h : pyInt (lastChars 4 p.1) <;> simp [h]
  constructor
  · rintro ⟨x, hx, hpi⟩
    obtain ⟨p, hp, rfl⟩ := List.mem_map.mp hx
    have hdec : decorate (readAll arquivos).referencias_por_amostra = none :=
      (decorateBy_none_iff rowKey _).mpr ⟨p, hp, (hlink p).mpr hpi⟩
    have htr : todas_referencias (readAll arquivos).referencias_por_amostra = none := by
      unfold todas_referencias
      rw [hdec]
      rfl
    simp [pipeline, htr]
  · intro hall
    unfold todas_referencias
    cases hdec : decorate (readAll arquivos).referencias_por_amostra with
    | some ds => simp
    | none =>
      obtain ⟨p, hp, hpk⟩ := (decorateBy_none_iff rowKey _).mp hdec
      have hparses := hall p.1 (List.mem_map_of_mem _ hp)
      rw [(hlink p).mp hpk] at hparses
      simp at hparses

/-- Witness for C7: the run on `rq3.txt` holding `G1` fails, and the sorting
step on `rq3.txt` holding `G0001` succeeds. -/
theorem unparsable_suffix_is_fatal_witness :
    pipeline [("rq3.txt", ["G1\n"])] = none ∧
    (todas_referencias
      (readAll [("rq3.txt", ["G0001\n"])]).referencias_por_amostra).isSome :=
  ⟨(unparsable_suffix_is_fatal [("rq3.txt", ["G1\n"])]).1 (by decide),
   (unparsable_suffix_is_fatal [("rq3.txt", ["G0001\n"])]).2 (by decide)⟩

/-- C5: a file parses to the set of its stripped nonblank lines (duplicates
within one file counted once), the reading step bumps the global tally exactly
once per identifier of the file (not per occurrence) and leaves other counts
untouched, and no blank line ever produces a matrix row. -/
theorem parsing_and_tally_contract (lines : List String) (x : String) (st : ReadState)
    (arquivo : String × List String) (r : String)
    (arquivos : List (String × List String)) (m : PMatrix)
    (hm : pipeline arquivos = some m) :
    (x ∈ referencias lines ↔ ∃ l ∈ lines, pyStrip l = x ∧ x ≠ "") ∧
    (referencias lines).Nodup ∧
    (dictGet r (lerArquivo st arquivo).referencias_por_amostra =
      if r ∈ referencias arquivo.2
      then some ((dictGet r st.referencias_por_amostra).getD 0 + 1)
      else dictGet r st.referencias_por_amostra) ∧
    "" ∉ m.rows := by
  refine ⟨mem_referencias lines x, nodup_referencias lines, ?_, ?_⟩
  · exact dictGet_tallyStep st.referencias_por_amostra (referencias arquivo.2) r
      (nodup_referencias arquivo.2)
  · obtain ⟨rows, cols, htr, hsc, rfl⟩ := pipeline_eq arquivos m hm
    show "" ∉ rows
    intro hmem
    have hkey := (todas_referencias_perm _ _ htr).mem_iff.mp hmem
    obtain ⟨f, hf, hx⟩ := (readAll_tally_mem arquivos "").mp hkey
    obtain ⟨l, hl, he, hne⟩ := (mem_referencias f.2 "").mp hx
    exact hne rfl

/-- Witness for C5 at concrete lines, state, file and run. -/
theorem parsing_and_tally_contract_witness :
    pipeline [("rq1.txt", ["A0001\n"])] = some ⟨["A0001"], ["RQ1"], [[1]]⟩ ∧
    (("x" ∈ referencias ["x\n"] ↔ ∃ l ∈ ["x\n"], pyStrip l = "x" ∧ "x" ≠ "") ∧
     (referencias ["x\n"]).Nodup ∧
     (dictGet "y" (lerArquivo ⟨[], []⟩ ("a.txt", ["y\n"])).referencias_por_amostra =
       if "y" ∈ referencias ["y\n"]
       then some ((dictGet "y" (⟨[], []⟩ : ReadState).referencias_por_amostra).getD 0 + 1)
       else dictGet "y" (⟨[], []⟩ : ReadState).referencias_por_amostra) ∧
     "" ∉ (PMatrix.mk ["A0001"] ["RQ1"] [[1]]).rows) :=
  ⟨by decide,
   parsing_and_tally_contract ["x\n"] "x" ⟨[], []⟩ ("a.txt", ["y\n"]) "y"
     [("rq1.txt", ["A0001\n"])] ⟨["A0001"], ["RQ1"], [[1]]⟩ (by decide)⟩

/-- C2: for every input file set, an identifier appears as a row of the matrix
exactly when it appears (after stripping, nonblank) in at least one input
file, and the row labels contain no duplicates. -/
theorem rows_are_exactly_observed_identifiers (arquivos : List (String × List String))
    (m : PMatrix) (x : String) (hm : pipeline arquivos = some m) :
    (x ∈ m.rows ↔ ∃ f ∈ arquivos, x ∈ referencias f.2) ∧ m.rows.Nodup := by
  obtain ⟨rows, cols, htr, hsc, rfl⟩ := pipeline_eq arquivos m hm
  have hperm := todas_referencias_perm _ _ htr
  constructor
  · show x ∈ rows ↔ _
    rw [hperm.mem_iff]
    exact readAll_tally_mem arquivos x
  · show rows.Nodup
    exact hperm.nodup_iff.mpr (readAll_keys_nodup arquivos).2

/-- Witness for C2 at a one-file input. -/
theorem rows_are_exactly_observed_identifiers_witness :
    pipeline [("rq1.txt", ["D0001\n"])] = some ⟨["D0001"], ["RQ1"], [[1]]⟩ ∧
    (("D0001" ∈ (PMatrix.mk ["D0001"] ["RQ1"] [[1]]).rows ↔
       ∃ f ∈ [("rq1.txt", ["D0001\n"])], "D0001" ∈ referencias f.2) ∧
     (PMatrix.mk ["D0001"] ["RQ1"] [[1]]).rows.Nodup) :=
  ⟨by decide,
   rows_are_exactly_observed_identifiers [("rq1.txt", ["D0001\n"])]
     ⟨["D0001"], ["RQ1"], [[1]]⟩ "D0001" (by decide)⟩

/-- C3: every pair of adjacent rows of the matrix is nondecreasing under the
composite key (file-frequency count, integer parsed from the identifier's last
four characters), compared lexicographically. -/
theorem rows_sorted_by_frequency_then_suffix (arquivos : List (String × List String))
    (m : PMatrix) (hm : pipeline arquivos = some m) :
    m.rows.Chain' (rowRel (readAll arquivos)) := by
  obtain ⟨rows, cols, htr, hsc, rfl⟩ := pipeline_eq arquivos m hm
  show rows.Chain' (rowRel (readAll arquivos))
  exact rows_chain_aux (readAll arquivos).referencias_por_amostra rows
    (readAll_keys_nodup arquivos).2 htr

/-- Witness for C3 at a one-file input with two identifiers. -/
theorem rows_sorted_by_frequency_then_suffix_witness :
    pipeline [("rq1.txt", ["E0001\n", "E0002\n"])]
      = some ⟨["E0001", "E0002"], ["RQ1"], [[1], [1]]⟩ ∧
    (PMatrix.mk ["E0001", "E0002"] ["RQ1"] [[1], [1]]).rows.Chain'
      (rowRel (readAll [("rq1.txt", ["E0001\n", "E0002\n"])])) :=
  ⟨by decide,
   rows_sorted_by_frequency_then_suffix [("rq1.txt", ["E0001\n", "E0002\n"])]
     ⟨["E0001", "E0002"], ["RQ1"], [[1], [1]]⟩ (by decide)⟩

/-- C4 (counterexample): the column order does depend on the enumeration
order: the same two files discovered in the two orders — `rq1.txt` and
`rq01.txt`, whose keys `RQ1` and `RQ01` share the integer suffix 1 — produce
different column orders, both sorted by suffix, because the stable sort keeps
the tied keys in insertion order. -/
theorem column_order_depends_on_enumeration :
    Option.map PMatrix.cols (pipeline [("rq1.txt", ["0001"]), ("rq01.txt", ["0001"])])
      = some ["RQ1", "RQ01"] ∧
    Option.map PMatrix.cols (pipeline [("rq01.txt", ["0001"]), ("rq1.txt", ["0001"])])
      = some ["RQ01", "RQ1"] ∧
    List.Perm [("rq1.txt", ["0001"]), ("rq01.txt", ["0001"])]
      [("rq01.txt", ["0001"]), ("rq1.txt", ["0001"])] ∧
    (["RQ1", "RQ01"] : List String) ≠ ["RQ01", "RQ1"] := by
  refine ⟨by decide, by decide, ?_, by decide⟩
  exact List.Perm.swap _ _ _

/-- C4 (amended): the columns of the matrix are the derived file keys, each
pair of adjacent columns nondecreasing under the integer value after `RQ`;
keys sharing a suffix keep their first-discovery order, so the column order
can depend on the enumeration order. -/
theorem columns_sorted_by_suffix (arquivos : List (String × List String))
    (m : PMatrix) (hm : pipeline arquivos = some m) :
    m.cols.Chain' colRel ∧
    m.cols.Perm (dKeys (readAll arquivos).referencias_por_arquivo) := by
  obtain ⟨rows, cols, htr, hsc, rfl⟩ := pipeline_eq arquivos m hm
  show cols.Chain' colRel ∧ cols.Perm _
  exact ⟨cols_chain_aux _ _ hsc, sortedColumns_perm _ _ hsc⟩

/-- Witness for the amended C4 at a two-file input. -/
theorem columns_sorted_by_suffix_witness :
    pipeline [("rq1.txt", ["F0001\n"]), ("rq2.txt", ["F0001\n"])]
      = some ⟨["F0001"], ["RQ1", "RQ2"], [[1, 1]]⟩ ∧
    (PMatrix.mk ["F0001"] ["RQ1", "RQ2"] [[1, 1]]).cols.Chain' colRel ∧
    (PMatrix.mk ["F0001"] ["RQ1", "RQ2"] [[1, 1]]).cols.Perm
      (dKeys (readAll [("rq1.txt", ["F0001\n"]), ("rq2.txt", ["F0001\n"])]).referencias_por_arquivo) :=
  ⟨by decide,
   (columns_sorted_by_suffix [("rq1.txt", ["F0001\n"]), ("rq2.txt", ["F0001\n"])]
     ⟨["F0001"], ["RQ1", "RQ2"], [[1, 1]]⟩ (by decide)).1,
   (columns_sorted_by_suffix [("rq1.txt", ["F0001\n"]), ("rq2.txt", ["F0001\n"])]
     ⟨["F0001"], ["RQ1", "RQ2"], [[1, 1]]⟩ (by decide)).2⟩

/-- C1: every cell of the matrix is 1 exactly when the row's identifier
belongs to the column's stored identifier set (else 0), and the set of row
labels whose cell in a column equals 1 reconstructs that file's identifier set
exactly. -/
theorem matrix_cells_iff_membership (arquivos : List (String × List String))
    (m : PMatrix) (i j : Nat) (x : String) (hm : pipeline arquivos = some m)
    (hi : i < m.rows.length) (hj : j < m.cols.length) :
    m.entry i j =
      (if m.rows.getD i "" ∈ refsOf arquivos (m.cols.getD j "") then 1 else 0) ∧
    (x ∈ m.colSet j ↔ x ∈ refsOf arquivos (m.cols.getD j "")) := by
  obtain ⟨rows, cols, htr, hsc, rfl⟩ := pipeline_eq arquivos m hm
  replace hi : i < rows.length := hi
  replace hj : j < cols.length := hj
  have hnrpa := (readAll_keys_nodup arquivos).1
  have hperm := todas_referencias_perm _ _ htr
  have hcell : ∀ r c : String,
      fillDf (readAll arquivos).referencias_por_arquivo (fun _ _ => 0) r c =
        if r ∈ refsOf arquivos c then 1 else 0 := by
    intro r c
    exact fillDf_cell _ hnrpa r c
  have hsub : ∀ y : String, y ∈ refsOf arquivos (cols.getD j "") → y ∈ rows := by
    intro y hy
    rw [refsOf] at hy
    cases hg : dictGet (cols.getD j "") (readAll arquivos).referencias_por_arquivo with
    | none => rw [hg] at hy; simp at hy
    | some v =>
      rw [hg] at hy
      simp only [Option.getD_some] at hy
      exact hperm.mem_iff.mpr (readAll_rpa_sub arquivos _ v hg y hy)
  constructor
  · show ((rows.map (fun r => cols.map (fun c =>
        fillDf (readAll arquivos).referencias_por_arquivo (fun _ _ => 0) r c))).getD i []).getD j 0
        = _
    rw [getD_map_lt rows _ i hi [] "", getD_map_lt cols _ j hj 0 ""]
    exact hcell _ _
  · have hEmap : (rows.map (fun r => cols.map (fun c =>
        fillDf (readAll arquivos).referencias_por_arquivo (fun _ _ => 0) r c))).map
          (fun row => row.getD j 0)
        = rows.map (fun r =>
            fillDf (readAll arquivos).referencias_por_arquivo (fun _ _ => 0) r
              (cols.getD j "")) := by
      rw [List.map_map]
      apply List.map_congr_left
      intro r _
      exact getD_map_lt cols _ j hj 0 ""
    have hmemset : x ∈ PMatrix.colSet ⟨rows, cols, rows.map (fun r => cols.map (fun c =>
        fillDf (readAll arquivos).referencias_por_arquivo (fun _ _ => 0) r c))⟩ j ↔
        x ∈ rows ∧ fillDf (readAll arquivos).referencias_por_arquivo (fun _ _ => 0) x
          (cols.getD j "") = 1 := by
      show x ∈ ((rows.zip _).filter _).map _ ↔ _
      rw [hEmap, zip_self_map]
      simp only [List.mem_map, List.mem_filter, decide_eq_true_eq]
      constructor
      · rintro ⟨p, ⟨⟨r, hr, rfl⟩, hp2⟩, rfl⟩
        exact ⟨hr, hp2⟩
      · rintro ⟨hx, h1⟩
        exact ⟨(x, fillDf (readAll arquivos).referencias_por_arquivo (fun _ _ => 0) x
          (cols.getD j "")), ⟨⟨x, hx, rfl⟩, h1⟩, rfl⟩
    rw [hmemset, hcell]
    constructor
    · rintro ⟨hx, h1⟩
      by_cases hx2 : x ∈ refsOf arquivos (cols.getD j "")
      · exact hx2
      · rw [if_neg hx2] at h1
        cases h1
    · intro hx
      exact ⟨hsub x hx, by rw [if_pos hx]⟩

/-- Witness for C1 at a two-file input, cell (0, 1) and identifier `C0002`. -/
theorem matrix_cells_iff_membership_witness :
    pipeline [("rq1.txt", ["C0001\n", "C0002\n"]), ("rq2.txt", ["C0002\n"])]
      = some ⟨["C0001", "C0002"], ["RQ1", "RQ2"], [[1, 0], [1, 1]]⟩ ∧
    ((PMatrix.mk ["C0001", "C0002"] ["RQ1", "RQ2"] [[1, 0], [1, 1]]).entry 0 1 =
      (if (PMatrix.mk ["C0001", "C0002"] ["RQ1", "RQ2"] [[1, 0], [1, 1]]).rows.getD 0 "" ∈
        refsOf [("rq1.txt", ["C0001\n", "C0002\n"]), ("rq2.txt", ["C0002\n"])]
          ((PMatrix.mk ["C0001", "C0002"] ["RQ1", "RQ2"] [[1, 0], [1, 1]]).cols.getD 1 "")
       then 1 else 0) ∧
     ("C0002" ∈ (PMatrix.mk ["C0001", "C0002"] ["RQ1", "RQ2"] [[1, 0], [1, 1]]).colSet 1 ↔
      "C0002" ∈ refsOf [("rq1.txt", ["C0001\n", "C0002\n"]), ("rq2.txt", ["C0002\n"])]
        ((PMatrix.mk ["C0001", "C0002"] ["RQ1", "RQ2"] [[1, 0], [1, 1]]).cols.getD 1 ""))) :=
  ⟨by decide,
   matrix_cells_iff_membership [("rq1.txt", ["C0001\n", "C0002\n"]), ("rq2.txt", ["C0002\n"])]
     ⟨["C0001", "C0002"], ["RQ1", "RQ2"], [[1, 0], [1, 1]]⟩ 0 1 "C0002"
     (by decide) (by decide) (by decide)⟩

end Heatmap
